import Mathlib

/-!
# Infrared: verification of spec claims against a shallow embedding

Shallow embedding of the parts of the Infrared MIDI compiler that the
claims C1..C10 concern: the temporal pointer codec (`src/pointer.c`),
the articulation transform (`src/art.c`), the MIDI moment comparator
and delta-time conversion (`src/midi.c`), the interpreter bank
(`src/core.c`), the renderer note emission (`src/render.c`), the graph
engine (`src/graph.c`) and the set algebra (`src/set.c`).

Machine integers are modelled as `Int` with the source's explicit range
checks carried over; C functions that abort through the fatal
diagnostic sink are modelled with `Except`, one error constructor per
distinct diagnostic site.  Dynamic-capacity limits and out-of-memory
aborts are resource limits of the C implementation and are not
modelled.
-/

namespace Infrared

/-- Decidable equality for `Except`, used to settle concrete
evaluations of the embedded functions by `decide`. -/
instance {ε α : Type} [DecidableEq ε] [DecidableEq α] :
    DecidableEq (Except ε α) := fun a b =>
  match a, b with
  | .error e1, .error e2 =>
    match decEq e1 e2 with
    | isTrue h => isTrue (by rw [h])
    | isFalse h => isFalse (by intro hh; cases hh; exact h rfl)
  | .error _, .ok _ => isFalse (by intro hh; cases hh)
  | .ok _, .error _ => isFalse (by intro hh; cases hh)
  | .ok a1, .ok a2 =>
    match decEq a1 a2 with
    | isTrue h => isTrue (by rw [h])
    | isFalse h => isFalse (by intro hh; cases hh; exact h rfl)

/-! ## Temporal pointer codec (`src/pointer.c`)

`pointer_unpack` decomposes a packed moment integer into a subquantum
offset and a moment part; `pointer_pack` recomposes them, rejecting
results that do not fit in a signed 32-bit integer.  All divisions in
the source act on non-negative operands, where C truncating division
agrees with Lean's `Int` division. -/

/-- Errors raised by `pointer_pack`: `badPart` is the `raiseErr(__LINE__, NULL)`
for a part outside {0,1,2}; `overflow` is the
"Overflow while computing moment offset" diagnostic. -/
inductive PackErr where
  | badPart
  | overflow
deriving DecidableEq, Repr

/-- `pointer_unpack` (src/pointer.c lines 662-692): decompose a moment
integer `m` into `(subquantum, part)`.  Negative values other than
`INT32_MIN` go through the adjustment branch; `INT32_MIN` is
special-cased in the source because `0 - m` would overflow. -/
def pointer_unpack (m : Int) : Int × Int :=
  if 0 ≤ m then
    (m / 3, m % 3)
  else if m ≤ -2147483648 then
    (-715827883, 1)
  else
    let s := (0 - ((0 - m) / 3)) - 1
    let p := 3 - ((0 - m) % 3)
    if 3 ≤ p then (s + 1, 0) else (s, p)

/-- `pointer_pack` (src/pointer.c lines 697-747): recompose a moment
integer from subquantum offset `s` and part `p`, with the source's
boundary cases at `s = 715827882` and `s = -715827883`. -/
def pointer_pack (s : Int) (p : Int) : Except PackErr Int :=
  if p < 0 ∨ 2 < p then .error .badPart
  else if -715827883 < s ∧ s < 715827882 then .ok (s * 3 + p)
  else if s = 715827882 then
    if p = 0 then .ok 2147483646
    else if p = 1 then .ok 2147483647
    else .error .overflow
  else if s = -715827883 then
    if p = 0 then .error .overflow
    else if p = 1 then .ok (-2147483648)
    else .ok (-2147483647)
  else .error .overflow

/-- Helper: `pointer_unpack` computes the floor quotient and remainder
by 3 on the whole `i32` range. -/
theorem pointer_unpack_eq (m : Int) (hlo : -2147483648 ≤ m)
    (hhi : m ≤ 2147483647) :
    pointer_unpack m = (m / 3, m % 3) := by
  unfold pointer_unpack
  by_cases h1 : 0 ≤ m
  · simp only [h1, if_true]
  · simp only [h1, if_false]
    by_cases h2 : m ≤ -2147483648
    · simp only [h2, if_true, Prod.mk.injEq]
      constructor <;> omega
    · simp only [h2, if_false]
      by_cases h3 : (3:Int) ≤ 3 - (0 - m) % 3
      · simp only [h3, if_true, Prod.mk.injEq]
        constructor <;> omega
      · simp only [h3, if_false, Prod.mk.injEq]
        constructor <;> omega

/-- Helper: for a legal part, `pointer_pack` succeeds with value
`s*3 + p` exactly when that value fits in `i32`, and otherwise fails
with the overflow diagnostic. -/
theorem pointer_pack_eq (s p : Int) (hp0 : 0 ≤ p) (hp2 : p ≤ 2) :
    pointer_pack s p =
      if s * 3 + p < -2147483648 ∨ 2147483647 < s * 3 + p then
        .error .overflow
      else .ok (s * 3 + p) := by
  unfold pointer_pack
  split_ifs <;> first
    | rfl
    | (exfalso; omega)
    | (congr 1; omega)

/-- C4: for every 32-bit signed integer `m`, `pointer_unpack m` yields
the floor quotient `s = ⌊m/3⌋` and part `p = m - 3·s ∈ {0,1,2}`, and
`pointer_pack s p` returns exactly `m` again (round trip over the whole
`i32` range, including `INT32_MIN` and `INT32_MAX`); moreover, for any
`s` and any `p ∈ {0,1,2}`, `pointer_pack s p` fails with the overflow
diagnostic exactly when `s*3 + p` does not fit in a signed 32-bit
integer, and returns `s*3 + p` otherwise. -/
theorem C4_moment_codec_roundtrip :
    (∀ m : Int, -2147483648 ≤ m → m ≤ 2147483647 →
      (pointer_unpack m).1 = m / 3 ∧
      (pointer_unpack m).2 = m - 3 * (m / 3) ∧
      0 ≤ (pointer_unpack m).2 ∧ (pointer_unpack m).2 ≤ 2 ∧
      pointer_pack (pointer_unpack m).1 (pointer_unpack m).2 = .ok m) ∧
    (∀ s p : Int, 0 ≤ p → p ≤ 2 →
      (pointer_pack s p = .error .overflow ↔
        (s * 3 + p < -2147483648 ∨ 2147483647 < s * 3 + p)) ∧
      (∀ r, pointer_pack s p = .ok r → r = s * 3 + p)) := by
  constructor
  · intro m hlo hhi
    rw [pointer_unpack_eq m hlo hhi]
    refine ⟨rfl, by omega, by omega, by omega, ?_⟩
    rw [pointer_pack_eq (m / 3) (m % 3) (by omega) (by omega)]
    have hcond : ¬ ((m / 3) * 3 + m % 3 < -2147483648 ∨
        2147483647 < (m / 3) * 3 + m % 3) := by omega
    rw [if_neg hcond]
    congr 1
    omega
  · intro s p hp0 hp2
    rw [pointer_pack_eq s p hp0 hp2]
    by_cases h : s * 3 + p < -2147483648 ∨ 2147483647 < s * 3 + p
    · rw [if_pos h]
      exact ⟨by simp [h], by intro r hr; cases hr⟩
    · rw [if_neg h]
      refine ⟨by simp [h], ?_⟩
      intro r hr
      cases hr
      rfl

/-- Witness for C4 at concrete inputs: round trip at `m = -5`, and an
overflow rejection at `(s, p) = (715827882, 2)`. -/
theorem C4_moment_codec_roundtrip_witness :
    pointer_pack (pointer_unpack (-5)).1 (pointer_unpack (-5)).2 =
      .ok (-5) ∧
    pointer_pack 715827882 2 = .error .overflow := by
  refine ⟨(C4_moment_codec_roundtrip.1 (-5) (by norm_num)
    (by norm_num)).2.2.2.2, ?_⟩
  exact (C4_moment_codec_roundtrip.2 715827882 2 (by norm_num)
    (by norm_num)).1.mpr (by norm_num)

/-! ## Articulation (`src/art.c`)

`art_new` validates the articulation parameters and normalises the
scale denominator to 8 by repeated doubling; `art_transform` scales a
measured duration and applies the bumper, the gap cap and the final
clamp to one — in that order. -/

/-- ART structure (src/art.c): normalised scale numerator (denominator
8 assumed), bumper (≥ 0 subquanta) and gap (≤ 0 subquanta). -/
structure ART where
  scale : Int
  bumper : Int
  gap : Int
deriving DecidableEq, Repr

/-- Errors raised by `art_new` / `art_transform`, one per diagnostic
site. -/
inductive ArtErr where
  | badDenom
  | badNum
  | badBumper
  | badGap
  | badDur
  | durOverflow
deriving DecidableEq, Repr

/-- The `while (scale_denom < 8)` doubling loop of `art_new`
(src/art.c lines 178-181).  The fuel bound 4 covers every validated
denominator (1, 2, 4 or 8 needs at most three doublings); for them the
loop exits through its own condition. -/
def normLoop : Nat → Int → Int → Int
  | 0, num, _ => num
  | fuel + 1, num, denom =>
    if denom < 8 then normLoop fuel (num * 2) (denom * 2) else num

/-- `art_new` (src/art.c lines 135-198): validate the parameters,
normalise the scale denominator to 8 and build the articulation. -/
def art_new (scale_num scale_denom bumper gap : Int) :
    Except ArtErr ART :=
  if scale_denom ≠ 1 ∧ scale_denom ≠ 2 ∧
      scale_denom ≠ 4 ∧ scale_denom ≠ 8 then .error .badDenom
  else if scale_num < 1 ∨ scale_denom < scale_num then .error .badNum
  else if bumper < 0 then .error .badBumper
  else if 0 < gap then .error .badGap
  else .ok ⟨normLoop 4 scale_num scale_denom, bumper, gap⟩

/-- `art_transform` (src/art.c lines 223-262): scale the measured
duration `dur` (quanta) to subquanta, multiply by the normalised scale
numerator, divide by 8, then raise to the bumper, cap at
`dur·8 + gap`, and clamp to at least one.  The first multiplication is
skipped (without a diagnostic) when `dur > INT32_MAX/8`, exactly as in
the source. -/
def art_transform (pa : ART) (dur : Int) : Except ArtErr Int :=
  if dur < 1 then .error .badDur
  else
    let dur := if dur ≤ 2147483647 / 8 then dur * 8 else dur
    if dur ≤ 2147483647 / pa.scale then
      let result := dur * pa.scale / 8
      let result := if result < pa.bumper then pa.bumper else result
      let result := if dur + pa.gap < result then dur + pa.gap else result
      let result := if result < 1 then 1 else result
      .ok result
    else .error .durOverflow

/-- Counterexample to C3 as stated: the articulation built from
`(num, denom, bumper, gap) = (1, 1, 9, 0)` (normalised scale 8/8) at
measured duration `d = 1` returns 8, while the claim's formula
`max(bumper, min(⌊d·8·num/8⌋, d·8 + gap))` clamped to at least 1
gives 9; in particular the result is below the bumper, refuting
"the result is always at least bumper". -/
theorem C3_art_transform_counterexample :
    art_new 1 1 9 0 = .ok ⟨8, 9, 0⟩ ∧
    art_transform ⟨8, 9, 0⟩ 1 = .ok 8 ∧
    max 1 (max 9 (min (1 * 8 * 8 / 8) (1 * 8 + 0)) : Int) = 9 ∧
    ¬ ((9 : Int) ≤ 8) := by
  refine ⟨by decide, by decide, by decide, by decide⟩

/-- C3 amended: for every articulation constructed with legal
parameters (`scale_denom ∈ {1,2,4,8}`, `1 ≤ scale_num ≤ scale_denom`,
`bumper ≥ 0`, `gap ≤ 0`) and every measured duration `d ≥ 1` quanta
whose scaled product fits in `i32`, `art_transform` returns
`min(max(bumper, ⌊d·8·num/8⌋), d·8 + gap)` clamped to at least 1 —
the bumper raise is applied before the gap cap, so the result is at
least `bumper` only when `bumper ≤ d·8 + gap`. -/
theorem C3_art_transform_amended (num denom bumper gap d : Int)
    (hden : denom = 1 ∨ denom = 2 ∨ denom = 4 ∨ denom = 8)
    (hn1 : 1 ≤ num) (hnd : num ≤ denom)
    (hb : 0 ≤ bumper) (hg : gap ≤ 0) (hd1 : 1 ≤ d)
    (hov : d * 8 * normLoop 4 num denom ≤ 2147483647) :
    art_new num denom bumper gap =
      .ok ⟨normLoop 4 num denom, bumper, gap⟩ ∧
    art_transform ⟨normLoop 4 num denom, bumper, gap⟩ d =
      .ok (max 1 (min (max bumper (d * 8 * normLoop 4 num denom / 8))
        (d * 8 + gap))) ∧
    (bumper ≤ d * 8 + gap →
      bumper ≤ max 1 (min (max bumper (d * 8 * normLoop 4 num denom / 8))
        (d * 8 + gap))) := by
  have hS : 1 ≤ normLoop 4 num denom := by
    rcases hden with h | h | h | h <;> subst h <;>
      simp only [normLoop] <;> norm_num <;> omega
  refine ⟨?_, ?_, ?_⟩
  · unfold art_new
    split_ifs with h1 h2 h3 h4 <;> first | rfl | (exfalso; omega)
  · have hd8m : d * 8 ≤ d * 8 * normLoop 4 num denom :=
      le_mul_of_one_le_right (by omega) hS
    have hd8 : d ≤ 2147483647 / 8 := by omega
    have hdivS : d * 8 ≤ 2147483647 / normLoop 4 num denom :=
      Int.le_ediv_iff_mul_le (by omega) |>.mpr (by omega)
    unfold art_transform
    have hnd1 : ¬ (d < 1) := by omega
    simp only [hnd1, if_false, hd8, if_true, hdivS]
    generalize d * 8 * normLoop 4 num denom / 8 = q
    simp only [max_def, min_def]
    split_ifs <;> first | rfl | (congr 1; omega) | (exfalso; omega)
  · intro hble
    generalize d * 8 * normLoop 4 num denom / 8 = q
    simp only [max_def, min_def]
    split_ifs <;> omega

/-- Witness for C3's amended theorem at
`(num, denom, bumper, gap, d) = (1, 2, 3, -2, 2)`: normalised scale 4,
so the transform gives `max 1 (min (max 3 8) 14) = 8`. -/
theorem C3_art_transform_amended_witness :
    art_new 1 2 3 (-2) = .ok ⟨4, 3, -2⟩ ∧
    art_transform ⟨4, 3, -2⟩ 2 = .ok 8 := by
  have h := C3_art_transform_amended 1 2 3 (-2) 2 (by norm_num)
    (by norm_num) (by norm_num) (by norm_num) (by norm_num)
    (by norm_num) (by decide)
  refine ⟨?_, ?_⟩
  · have := h.1
    simpa using this
  · have := h.2.1
    simpa using this

/-! ## MIDI assembler (`src/midi.c`)

A moment-buffer record carries a unique event id, a packed moment
offset and a message selector whose high 8 bits are the status byte.
`cmpMoment` is the comparator used by `qsort` over the moment buffer;
`midi_compile` then converts the sorted, End-Of-Track-capped buffer to
delta times in place. -/

/-- MOMENT structure (src/midi.c): event id, packed moment offset and
32-bit message selector (status byte in the high 8 bits). -/
structure MOMENT where
  eid : Int
  t : Int
  sel : Nat
deriving DecidableEq, Repr

/-- `cmpMoment` (src/midi.c lines 1809-1879): compare two moment
records by moment offset, then status class (status bytes 0x80-0xAF
are class 2, everything else class 1), then status byte with
0xF0-0xFF collapsed into one bucket, then event id. -/
def cmpMoment (e1 e2 : MOMENT) : Int :=
  if e1.t > e2.t then 1
  else if e1.t < e2.t then -1
  else
    let s1 := e1.sel >>> 24
    let s2 := e2.sel >>> 24
    let c1 : Int := if 0x80 ≤ s1 ∧ s1 ≤ 0xaf then 2 else 1
    let c2 : Int := if 0x80 ≤ s2 ∧ s2 ≤ 0xaf then 2 else 1
    if c1 > c2 then 1
    else if c1 < c2 then -1
    else
      let s1 := if 0xf0 ≤ s1 ∧ s1 ≤ 0xff then 0xf0 else s1
      let s2 := if 0xf0 ≤ s2 ∧ s2 ≤ 0xff then 0xf0 else s2
      if s1 > s2 then 1
      else if s1 < s2 then -1
      else
        if e1.eid > e2.eid then 1
        else if e1.eid < e2.eid then -1
        else 0

/-- The status class of a moment record, as used by `cmpMoment`. -/
def momentClass (e : MOMENT) : Int :=
  if 0x80 ≤ e.sel >>> 24 ∧ e.sel >>> 24 ≤ 0xaf then 2 else 1

/-- The status-byte bucket of a moment record: the status byte with
0xF0-0xFF collapsed to 0xF0, as used by `cmpMoment`. -/
def momentBucket (e : MOMENT) : Nat :=
  if 0xf0 ≤ e.sel >>> 24 ∧ e.sel >>> 24 ≤ 0xff then 0xf0
  else e.sel >>> 24

/-- The strict lexicographic order on
`(moment, status class, status bucket, event id)` that C5 says
`cmpMoment` implements. -/
def momentKeyLt (e1 e2 : MOMENT) : Prop :=
  e1.t < e2.t ∨ (e1.t = e2.t ∧
    (momentClass e1 < momentClass e2 ∨ (momentClass e1 = momentClass e2 ∧
      (momentBucket e1 < momentBucket e2 ∨
        (momentBucket e1 = momentBucket e2 ∧ e1.eid < e2.eid)))))

/-- The comparison cascade shared by the four stages of `cmpMoment`,
abstracted over the four key components. -/
def cmpChain (a1 a2 b1 b2 : Int) (c1 c2 : Nat) (d1 d2 : Int) : Int :=
  if a1 > a2 then 1
  else if a1 < a2 then -1
  else if b1 > b2 then 1
  else if b1 < b2 then -1
  else if c1 > c2 then 1
  else if c1 < c2 then -1
  else if d1 > d2 then 1
  else if d1 < d2 then -1
  else 0

theorem cmpChain_lt_iff (a1 a2 b1 b2 : Int) (c1 c2 : Nat) (d1 d2 : Int) :
    cmpChain a1 a2 b1 b2 c1 c2 d1 d2 < 0 ↔
      (a1 < a2 ∨ (a1 = a2 ∧ (b1 < b2 ∨ (b1 = b2 ∧
        (c1 < c2 ∨ (c1 = c2 ∧ d1 < d2)))))) := by
  unfold cmpChain
  split_ifs <;> simp <;> omega

theorem cmpChain_eq_zero_iff (a1 a2 b1 b2 : Int) (c1 c2 : Nat)
    (d1 d2 : Int) :
    cmpChain a1 a2 b1 b2 c1 c2 d1 d2 = 0 ↔
      (a1 = a2 ∧ b1 = b2 ∧ c1 = c2 ∧ d1 = d2) := by
  unfold cmpChain
  split_ifs <;> simp <;> omega

theorem cmpChain_gt_iff (a1 a2 b1 b2 : Int) (c1 c2 : Nat) (d1 d2 : Int) :
    0 < cmpChain a1 a2 b1 b2 c1 c2 d1 d2 ↔
      (a2 < a1 ∨ (a2 = a1 ∧ (b2 < b1 ∨ (b2 = b1 ∧
        (c2 < c1 ∨ (c2 = c1 ∧ d2 < d1)))))) := by
  unfold cmpChain
  split_ifs <;> simp <;> omega

/-- `cmpMoment` is the comparison cascade applied to the key
`(moment, status class, status bucket, event id)`. -/
theorem cmpMoment_eq_cmpChain (e1 e2 : MOMENT) :
    cmpMoment e1 e2 = cmpChain e1.t e2.t (momentClass e1)
      (momentClass e2) (momentBucket e1) (momentBucket e2)
      e1.eid e2.eid := rfl

/-- C5: `cmpMoment` sorts the moment list exactly by the lexicographic
key `(moment, status class, status bucket, event id)` — status bytes
outside 0x80-0xAF (class 1) before the note-off/note-on/poly-aftertouch
class (class 2), then by status byte with 0xF0-0xFF collapsed into one
bucket, then by ascending event id; the order is total (trichotomous,
comparing equal only when all four key components agree, hence
deterministic for unique event ids), and a note-off (status 0x8n) always
compares before a note-on (status 0x9n) at the same moment. -/
theorem C5_moment_ordering (e1 e2 : MOMENT) :
    (cmpMoment e1 e2 < 0 ↔ momentKeyLt e1 e2) ∧
    (cmpMoment e1 e2 = 0 ↔ (e1.t = e2.t ∧
      momentClass e1 = momentClass e2 ∧
      momentBucket e1 = momentBucket e2 ∧ e1.eid = e2.eid)) ∧
    (0 < cmpMoment e1 e2 ↔ momentKeyLt e2 e1) ∧
    (e1.t = e2.t → 0x80 ≤ e1.sel >>> 24 → e1.sel >>> 24 ≤ 0x8f →
      0x90 ≤ e2.sel >>> 24 → e2.sel >>> 24 ≤ 0x9f →
      cmpMoment e1 e2 = -1) := by
  rw [cmpMoment_eq_cmpChain]
  refine ⟨?_, ?_, ?_, ?_⟩
  · exact cmpChain_lt_iff _ _ _ _ _ _ _ _
  · exact cmpChain_eq_zero_iff _ _ _ _ _ _ _ _
  · exact cmpChain_gt_iff _ _ _ _ _ _ _ _
  · intro ht h1a h1b h2a h2b
    have hc1 : momentClass e1 = 2 := by
      unfold momentClass
      rw [if_pos ⟨by omega, by omega⟩]
    have hc2 : momentClass e2 = 2 := by
      unfold momentClass
      rw [if_pos ⟨by omega, by omega⟩]
    have hb1 : momentBucket e1 = e1.sel >>> 24 := by
      unfold momentBucket
      rw [if_neg (by omega)]
    have hb2 : momentBucket e2 = e2.sel >>> 24 := by
      unfold momentBucket
      rw [if_neg (by omega)]
    unfold cmpChain
    rw [hc1, hc2, hb1, hb2]
    split_ifs <;> omega

/-- Witness for C5 at concrete records: a note-off (status 0x80) and a
note-on (status 0x90) at the same moment compare note-off first. -/
theorem C5_moment_ordering_witness :
    cmpMoment ⟨1, 5, 0x80 <<< 24⟩ ⟨2, 5, 0x90 <<< 24⟩ = -1 :=
  (C5_moment_ordering ⟨1, 5, 0x80 <<< 24⟩ ⟨2, 5, 0x90 <<< 24⟩).2.2.2
    rfl (by decide) (by decide) (by decide) (by decide)

/-- Insertion of one record into a list sorted by a comparator; used to
model the effect of `qsort` on the moment buffer (the comparator is
total, so any comparison sort produces the same sequence whenever the
event ids are unique). -/
def sortInsert (le : MOMENT → MOMENT → Bool) (x : MOMENT) :
    List MOMENT → List MOMENT
  | [] => [x]
  | y :: ys => if le x y then x :: y :: ys else y :: sortInsert le x ys

/-- Sorting of the moment buffer by a comparator (see `sortInsert`). -/
def sortMoments (le : MOMENT → MOMENT → Bool) :
    List MOMENT → List MOMENT
  | [] => []
  | x :: xs => sortInsert le x (sortMoments le xs)

/-- The in-place moment-to-delta conversion loop of `midi_compile`
(src/midi.c lines 2215-2220): each entry is first replaced by its
subquantum offset relative to `m_lower`, and entries after the first
then subtract the value stored in the previous entry — which the
previous iteration has already overwritten with its own converted
value. -/
def midiDeltaLoop (lower : Int) : Option Int → List Int → List Int
  | _, [] => []
  | prev, t :: rest =>
    let s := (pointer_unpack t).1 - lower
    let d := match prev with
      | none => s
      | some p => s - p
    d :: midiDeltaLoop lower (some d) rest

/-- The moment-buffer phase of `midi_compile` (src/midi.c lines
2202-2220): sort the moment buffer with `cmpMoment`, append the
End-Of-Track event at `pointer_pack m_upper 2`, then run the in-place
delta conversion relative to `m_lower`. -/
def midi_compile_deltas (lower upper : Int) (moments : List MOMENT) :
    Except PackErr (List Int) := do
  let sorted := sortMoments (fun a b => decide (cmpMoment a b ≤ 0)) moments
  let eot ← pointer_pack upper 2
  pure (midiDeltaLoop lower none (sorted.map (fun e => e.t) ++ [eot]))

/-- C1 failing input: four note-on events at subquantum offsets
0, 10, 20, 30 (packed moments 0, 30, 60, 90, all with moment part
start), event range [0, 30].  After sorting and appending End-Of-Track
at `pack(30, 2) = 92`, the in-place conversion produces deltas
`[0, 10, 10, 20, 10]`, whereas the claimed conversion — each event's
subquantum offset minus the previous event's subquantum offset (first
event relative to `event_range_lower`) — gives `[0, 10, 10, 10, 0]`:
the loop subtracts the previous entry's already-converted delta
instead of its subquantum offset. -/
theorem C1_delta_conversion_failing :
    midi_compile_deltas 0 30
      [⟨1, 0, 0x90 <<< 24⟩, ⟨2, 30, 0x90 <<< 24⟩,
       ⟨3, 60, 0x90 <<< 24⟩, ⟨4, 90, 0x90 <<< 24⟩] =
      .ok [0, 10, 10, 20, 10] ∧
    ([0, 10, 10, 20, 10] : List Int) ≠ [0, 10, 10, 10, 0] := by
  exact ⟨by decide, by decide⟩

/-! ## Interpreter core (`src/core.c`)

The stack is modelled head-on-top; the bank is the array of cells in
declaration order, with the `rfdict` name map represented by
first-match lookup (declaration rejects duplicate names, so names are
unique).  Values are opaque for these claims and modelled as `Int`. -/

/-- A bank cell (src/core.c): declared name, constant flag and bound
value. -/
structure BANK_CELL where
  name : String
  is_const : Bool
  cv : Int
deriving DecidableEq, Repr

/-- The interpreter state: value stack (head is top of stack), group
stack of stack-length snapshots, and bank. -/
structure CoreState where
  st : List Int
  gs : List Nat
  bank : List BANK_CELL
deriving DecidableEq, Repr

/-- Errors raised by the core operations. -/
inductive CoreErr where
  | stackOverflow
  | stackUnderflow
  | undefinedName
  | constAssign
deriving DecidableEq, Repr

/-- `rfdict_get` over the bank map: index of the cell a name is bound
to, if any. -/
def bankFind (bank : List BANK_CELL) (key : String) : Option Nat :=
  bank.findIdx? (fun c => c.name = key)

/-- `core_push` (src/core.c lines 599-661): push a value, failing
above the stack bound `STACK_MAX_CAP = 16384`. -/
def core_push (s : CoreState) (v : Int) : Except CoreErr CoreState :=
  if 16384 ≤ s.st.length then .error .stackOverflow
  else .ok { s with st := v :: s.st }

/-- `core_pop` (src/core.c lines 666-694): pop the top value, failing
unless at least one element is visible above the topmost group
snapshot. -/
def core_pop (s : CoreState) : Except CoreErr (Int × CoreState) :=
  let hidden := match s.gs with
    | [] => 0
    | g :: _ => g
  if s.st.length ≤ hidden then .error .stackUnderflow
  else
    match s.st with
    | [] => .error .stackUnderflow
    | v :: rest => .ok (v, { s with st := rest })

/-- `core_assign` (src/core.c lines 807-838): look the name up in the
bank, fail with *Undefined* if absent and with *Const* if bound as a
constant — and then `core_push` the currently bound value (the source
pushes, exactly like `core_get`; it does not pop the stack and does
not modify the binding). -/
def core_assign (s : CoreState) (key : String) :
    Except CoreErr CoreState :=
  match bankFind s.bank key with
  | none => .error .undefinedName
  | some i =>
    let cell := s.bank.getD i ⟨"", false, 0⟩
    if cell.is_const then .error .constAssign
    else core_push s cell.cv

/-- C2 failing input: bank binds variable `x` to 5, stack holds the
single value 7 and no group is open.  `core_assign "x"` returns with
stack `[5, 7]` — the bound value was pushed, the stack grew from one
element to two, and the binding still holds 5 — whereas the claim says
the value 7 is popped (stack length decreasing to zero) and the
binding of `x` replaced by 7. -/
theorem C2_assign_failing :
    core_assign ⟨[7], [], [⟨"x", false, 5⟩]⟩ "x" =
      .ok ⟨[5, 7], [], [⟨"x", false, 5⟩]⟩ ∧
    ([5, 7] : List Int).length = 2 ∧
    core_assign ⟨[7], [], [⟨"x", true, 5⟩]⟩ "x" =
      .error .constAssign ∧
    core_assign ⟨[7], [], []⟩ "x" = .error .undefinedName := by
  exact ⟨by decide, by decide, by decide, by decide⟩

/-! ## Graph engine (`src/graph.c`)

A graph is an immutable table of `(t, v)` nodes with strictly
ascending times.  `graphSeek` finds by binary search the node with the
latest time not after the query; `graph_query` returns its value,
falling back to the first node. -/

/-- Graph node (src/graph.c): moment offset and value. -/
structure NODE where
  t : Int
  v : Int
deriving DecidableEq, Repr

/-- GRAPH structure (src/graph.c): the node table.  Constructed graphs
always hold at least one node, each node has a unique moment offset and
nodes are sorted ascending. -/
structure GRAPH where
  table : List NODE
deriving DecidableEq, Repr

/-- Array indexing into a node table (out-of-range reads never occur
on the source's validated indices). -/
def nodeAt (l : List NODE) (i : Nat) : NODE := l.getD i ⟨0, 0⟩

/-- The node-table well-formedness invariant: strictly ascending
moment offsets (src/graph.c GRAPH documentation). -/
def tableSorted (l : List NODE) : Prop :=
  l.Pairwise (fun a b => a.t < b.t)

instance (l : List NODE) : Decidable (tableSorted l) :=
  inferInstanceAs (Decidable (l.Pairwise (fun a b : NODE => a.t < b.t)))

theorem tableSorted_nodeAt {l : List NODE} (hs : tableSorted l)
    {i j : Nat} (hij : i < j) (hj : j < l.length) :
    (nodeAt l i).t < (nodeAt l j).t := by
  have hi : i < l.length := lt_trans hij hj
  unfold nodeAt
  rw [List.getD_eq_getElem l _ hi, List.getD_eq_getElem l _ hj]
  exact (List.pairwise_iff_getElem.mp hs) i j hi hj hij

/-- The `while (lo < hi)` search loop of `graphSeek` (src/graph.c
lines 1041-1069), with the midpoint biased to be strictly above the
lower boundary.  Each iteration shrinks `hi - lo`, so fuel
`table.length` (≥ the initial `hi - lo`) makes the model exit exactly
through the loop's own condition. -/
def seekLoop (table : List NODE) (tq : Int) : Nat → Nat → Nat → Nat
  | 0, lo, _ => lo
  | fuel + 1, lo, hi =>
    if lo < hi then
      let mid0 := lo + (hi - lo) / 2
      let mid := if mid0 ≤ lo then lo + 1 else mid0
      if (nodeAt table mid).t < tq then seekLoop table tq fuel mid hi
      else if tq < (nodeAt table mid).t then
        seekLoop table tq fuel lo (mid - 1)
      else mid
    else lo

/-- `graphSeek` (src/graph.c lines 1019-1080): index of the node with
the latest time offset less than or equal to `tq`, or -1 if every node
is later.  (The source raises a diagnostic for an empty table; the
claims only concern constructed graphs, which are never empty.) -/
def graphSeek (g : GRAPH) (tq : Int) : Int :=
  let lo := seekLoop g.table tq g.table.length 0 (g.table.length - 1)
  if (nodeAt g.table lo).t ≤ tq then (lo : Int) else -1

/-- `graph_query` (src/graph.c lines 1359-1376): the value of the node
found by `graphSeek`, defaulting to the first node. -/
def graph_query (g : GRAPH) (tq : Int) : Int :=
  let i := graphSeek g tq
  let i := if i < 0 then 0 else i
  (nodeAt g.table i.toNat).v

/-- Invariant proof for the binary-search loop of `graphSeek`: on a
sorted table, starting from a window `[lo, hi]` such that everything
right of `hi` is after `tq` and `lo` is 0 or not after `tq`, the loop
lands on an index with the same two properties. -/
theorem seekLoop_spec (table : List NODE) (tq : Int)
    (hs : tableSorted table) :
    ∀ (fuel lo hi : Nat), hi - lo ≤ fuel → hi < table.length →
    lo ≤ hi →
    (∀ j, hi < j → j < table.length → tq < (nodeAt table j).t) →
    (lo = 0 ∨ (nodeAt table lo).t ≤ tq) →
    seekLoop table tq fuel lo hi < table.length ∧
    (∀ j, seekLoop table tq fuel lo hi < j → j < table.length →
      tq < (nodeAt table j).t) ∧
    (seekLoop table tq fuel lo hi = 0 ∨
      (nodeAt table (seekLoop table tq fuel lo hi)).t ≤ tq) := by
  intro fuel
  induction fuel with
  | zero =>
    intro lo hi hfuel hhi hlh hA hB
    have hleq : lo = hi := by omega
    subst hleq
    simp only [seekLoop]
    exact ⟨by omega, hA, hB⟩
  | succ fuel ih =>
    intro lo hi hfuel hhi hlh hA hB
    simp only [seekLoop]
    by_cases hlt : lo < hi
    · simp only [hlt, if_true]
      set mid0 := lo + (hi - lo) / 2 with hmid0
      set mid := if mid0 ≤ lo then lo + 1 else mid0 with hmid
      have hmid1 : lo + 1 ≤ mid := by
        rw [hmid]
        split_ifs <;> omega
      have hmid2 : mid ≤ hi := by
        rw [hmid]
        split_ifs <;> omega
      by_cases h1 : (nodeAt table mid).t < tq
      · simp only [h1, if_true]
        exact ih mid hi (by omega) hhi (by omega) hA
          (Or.inr (le_of_lt h1))
      · simp only [h1, if_false]
        by_cases h2 : tq < (nodeAt table mid).t
        · simp only [h2, if_true]
          refine ih lo (mid - 1) (by omega) (by omega) (by omega)
            ?_ hB
          intro j hj1 hj2
          by_cases hj3 : j ≤ hi
          · rcases Nat.eq_or_lt_of_le (show mid ≤ j by omega) with
              he | hl
            · rw [← he]
              exact h2
            · exact lt_trans h2 (tableSorted_nodeAt hs hl hj2)
          · exact hA j (by omega) hj2
        · have heq : (nodeAt table mid).t = tq := by omega
          simp only [h2, if_false]
          refine ⟨by omega, ?_, Or.inr (le_of_eq heq)⟩
          intro j hj1 hj2
          by_cases hj3 : j ≤ hi
          · have := tableSorted_nodeAt hs hj1 hj2
            omega
          · exact hA j (by omega) hj2
    · simp only [hlt, if_false]
      have hleq : lo = hi := by omega
      subst hleq
      exact ⟨by omega, hA, hB⟩

/-- C7: for every constructed graph (non-empty, strictly ascending
table) and every moment offset `tq`, `graph_query` returns the value
of the node with the latest time among all nodes with time ≤ `tq`
(characterised as the index-maximal such node), or the first node's
value if every node's time is greater than `tq`; in particular a query
exactly at a node's time returns that node's value. -/
theorem C7_graph_query_latest_node (g : GRAPH) (hne : g.table ≠ [])
    (hs : tableSorted g.table) :
    (∀ tq : Int,
      ((∀ j, j < g.table.length → tq < (nodeAt g.table j).t) →
        graph_query g tq = (nodeAt g.table 0).v) ∧
      (∀ i, i < g.table.length → (nodeAt g.table i).t ≤ tq →
        (∀ j, j < g.table.length → (nodeAt g.table j).t ≤ tq → j ≤ i) →
        graph_query g tq = (nodeAt g.table i).v)) ∧
    (∀ i, i < g.table.length →
      graph_query g (nodeAt g.table i).t = (nodeAt g.table i).v) := by
  have hlen : 0 < g.table.length := List.length_pos.mpr hne
  have hmain : ∀ tq : Int,
      ((∀ j, j < g.table.length → tq < (nodeAt g.table j).t) →
        graph_query g tq = (nodeAt g.table 0).v) ∧
      (∀ i, i < g.table.length → (nodeAt g.table i).t ≤ tq →
        (∀ j, j < g.table.length → (nodeAt g.table j).t ≤ tq → j ≤ i) →
        graph_query g tq = (nodeAt g.table i).v) := by
    intro tq
    obtain ⟨hr1, hr2, hr3⟩ := seekLoop_spec g.table tq hs
      g.table.length 0 (g.table.length - 1) (by omega) (by omega)
      (by omega) (by intro j hj1 hj2; omega) (Or.inl rfl)
    set r := seekLoop g.table tq g.table.length 0 (g.table.length - 1)
      with hr
    constructor
    · intro hfut
      have hgt : ¬ (nodeAt g.table r).t ≤ tq := by
        have := hfut r hr1
        omega
      simp only [graph_query, graphSeek, ← hr, hgt, if_false]
      norm_num
    · intro i hi hti hmax
      by_cases hcas : (nodeAt g.table r).t ≤ tq
      · have h1 : r ≤ i := hmax r hr1 hcas
        have h2 : i ≤ r := by
          by_contra hcon
          have := hr2 i (by omega) hi
          omega
        have hri : r = i := by omega
        simp only [graph_query, graphSeek, ← hr, hcas, if_true]
        have hpos : ¬ ((r : Int) < 0) := by omega
        simp only [hpos, if_false, Int.toNat_natCast]
        rw [hri]
      · exfalso
        rcases hr3 with h0 | hle
        · rcases Nat.eq_zero_or_pos i with hi0 | hip
          · rw [hi0] at hti
            rw [h0] at hcas
            exact hcas hti
          · have := hr2 i (by omega) hi
            omega
        · exact hcas hle
  refine ⟨hmain, ?_⟩
  intro i hi
  refine (hmain (nodeAt g.table i).t).2 i hi (le_refl _) ?_
  intro j hj htj
  by_contra hcon
  have := tableSorted_nodeAt hs (show i < j by omega) hj
  omega

/-- Witness for C7 on the concrete graph with nodes
`(0, 64), (10, 5)`: querying between, exactly at, and before the
nodes. -/
theorem C7_graph_query_latest_node_witness :
    graph_query ⟨[⟨0, 64⟩, ⟨10, 5⟩]⟩ 3 = 64 ∧
    graph_query ⟨[⟨0, 64⟩, ⟨10, 5⟩]⟩ 10 = 5 ∧
    graph_query ⟨[⟨0, 64⟩, ⟨10, 5⟩]⟩ (-7) = 64 := by
  have h := C7_graph_query_latest_node ⟨[⟨0, 64⟩, ⟨10, 5⟩]⟩
    (by decide) (by decide)
  refine ⟨?_, ?_, ?_⟩
  · refine (h.1 3).2 0 (by decide) (by decide) ?_
    intro j hj htj
    have hj2 : j < 2 := by simpa using hj
    interval_cases j
    · decide
    · exact absurd htj (by decide)
  · exact h.2 1 (by decide)
  · refine (h.1 (-7)).1 ?_
    intro j hj
    have hj2 : j < 2 := by simpa using hj
    interval_cases j <;> decide

/-! ## Constant-graph interning cache (`src/graph.c`)

`cache_get` keeps a value-sorted array of `(value, graph)` entries:
a binary search finds the least entry with value at least the request;
a hit returns the cached graph object, a miss allocates a fresh
constant graph (modelled by the allocation counter `nextId`, which
stands for the new object's identity) and inserts it at the found
position. -/

/-- CACHE entry (src/graph.c): constant value and the graph object
holding it, the latter modelled by its allocation identity. -/
structure CACHE_ENTRY where
  v : Int
  pg : Nat
deriving DecidableEq, Repr

/-- The graph module's interning state: the constant-graph cache and
the allocation counter standing for object identities. -/
structure GraphCtx where
  cache : List CACHE_ENTRY
  nextId : Nat
deriving DecidableEq, Repr

/-- Array indexing into the cache. -/
def entryAt (l : List CACHE_ENTRY) (i : Nat) : CACHE_ENTRY :=
  l.getD i ⟨0, 0⟩

/-- The cache well-formedness invariant: entries sorted in strictly
ascending order of constant value (src/graph.c m_cache
documentation). -/
def cacheSorted (l : List CACHE_ENTRY) : Prop :=
  l.Pairwise (fun a b => a.v < b.v)

instance (l : List CACHE_ENTRY) : Decidable (cacheSorted l) :=
  inferInstanceAs
    (Decidable (l.Pairwise (fun a b : CACHE_ENTRY => a.v < b.v)))

theorem cacheSorted_entryAt {l : List CACHE_ENTRY} (hs : cacheSorted l)
    {i j : Nat} (hij : i < j) (hj : j < l.length) :
    (entryAt l i).v < (entryAt l j).v := by
  have hi : i < l.length := lt_trans hij hj
  unfold entryAt
  rw [List.getD_eq_getElem l _ hi, List.getD_eq_getElem l _ hj]
  exact (List.pairwise_iff_getElem.mp hs) i j hi hj hij

/-- The `while (lo < hi)` search loop of `cache_get` (src/graph.c
lines 373-401), with the midpoint biased to be strictly below the
upper boundary.  Each iteration shrinks `hi - lo`, so fuel
`cache.length` makes the model exit exactly through the loop's own
condition; the exit value is the final `hi` (equal to `lo` on exit),
which the source then inspects. -/
def cacheFindLoop (cache : List CACHE_ENTRY) (v : Int) :
    Nat → Nat → Nat → Nat
  | 0, _, hi => hi
  | fuel + 1, lo, hi =>
    if lo < hi then
      let mid0 := lo + (hi - lo) / 2
      let mid := if hi ≤ mid0 then hi - 1 else mid0
      if v < (entryAt cache mid).v then cacheFindLoop cache v fuel lo mid
      else if (entryAt cache mid).v < v then
        cacheFindLoop cache v fuel (mid + 1) hi
      else mid
    else hi

/-- The search phase of `cache_get` (src/graph.c lines 363-415): index
of the least cache entry with value at least `v`, or -1 if there is
none (in particular on an empty cache). -/
def cacheSearch (cache : List CACHE_ENTRY) (v : Int) : Int :=
  if cache.length = 0 then -1
  else
    let hi := cacheFindLoop cache v cache.length 0 (cache.length - 1)
    if v ≤ (entryAt cache hi).v then (hi : Int) else -1

/-- `cache_get` (src/graph.c lines 334-500): look `v` up in the cache;
on a hit return the cached graph, on a miss shift the entries from the
found position up by one (`List.insertIdx`), store a freshly allocated
constant graph there (appending when the search returned -1) and
return it. -/
def cache_get (ctx : GraphCtx) (v : Int) : GraphCtx × Nat :=
  let pos := cacheSearch ctx.cache v
  if pos < 0 ∨ (entryAt ctx.cache pos.toNat).v ≠ v then
    let idx := if pos < 0 then ctx.cache.length else pos.toNat
    (⟨ctx.cache.insertIdx idx ⟨v, ctx.nextId⟩, ctx.nextId + 1⟩,
      ctx.nextId)
  else
    (ctx, (entryAt ctx.cache pos.toNat).pg)

/-- Errors raised by `graph_constant` / `accTake`. -/
inductive GraphErr where
  | negativeValue
  | emptyGraph
deriving DecidableEq, Repr

/-- `graph_constant` (src/graph.c lines 1092-1102): reject negative
values, then fetch the constant graph through the interning cache. -/
def graph_constant (ctx : GraphCtx) (v : Int) :
    Except GraphErr (GraphCtx × Nat) :=
  if v < 0 then .error .negativeValue
  else .ok (cache_get ctx v)

/-- `accTake` (src/graph.c lines 662-726): turn the accumulator node
list into a graph object — an error when empty, the interning cache
when it holds a single node, and a freshly allocated multi-node graph
otherwise. -/
def accTake (ctx : GraphCtx) (acc : List NODE) :
    Except GraphErr (GraphCtx × Nat) :=
  if acc.length < 1 then .error .emptyGraph
  else if acc.length = 1 then .ok (cache_get ctx (nodeAt acc 0).v)
  else .ok (⟨ctx.cache, ctx.nextId + 1⟩, ctx.nextId)

/-- Invariant proof for the binary-search loop of `cache_get`: on a
sorted cache, starting from a window `[lo, hi]` such that everything
left of `lo` is below `v` and `hi` is the last index or at least `v`,
the loop lands on an index with the same two properties. -/
theorem cacheFindLoop_spec (cache : List CACHE_ENTRY) (v : Int)
    (hs : cacheSorted cache) :
    ∀ (fuel lo hi : Nat), hi - lo ≤ fuel → hi < cache.length →
    lo ≤ hi →
    (∀ j, j < lo → (entryAt cache j).v < v) →
    (hi = cache.length - 1 ∨ v ≤ (entryAt cache hi).v) →
    cacheFindLoop cache v fuel lo hi < cache.length ∧
    (∀ j, j < cacheFindLoop cache v fuel lo hi →
      (entryAt cache j).v < v) ∧
    (cacheFindLoop cache v fuel lo hi = cache.length - 1 ∨
      v ≤ (entryAt cache (cacheFindLoop cache v fuel lo hi)).v) := by
  intro fuel
  induction fuel with
  | zero =>
    intro lo hi hfuel hhi hlh hA hB
    simp only [cacheFindLoop]
    exact ⟨hhi, by intro j hj; exact hA j (by omega), hB⟩
  | succ fuel ih =>
    intro lo hi hfuel hhi hlh hA hB
    simp only [cacheFindLoop]
    by_cases hlt : lo < hi
    · simp only [hlt, if_true]
      set mid0 := lo + (hi - lo) / 2 with hmid0
      set mid := if hi ≤ mid0 then hi - 1 else mid0 with hmid
      have hmid1 : lo ≤ mid := by
        rw [hmid]
        split_ifs <;> omega
      have hmid2 : mid ≤ hi - 1 := by
        rw [hmid]
        split_ifs <;> omega
      by_cases h1 : v < (entryAt cache mid).v
      · simp only [h1, if_true]
        exact ih lo mid (by omega) (by omega) (by omega) hA
          (Or.inr (le_of_lt h1))
      · simp only [h1, if_false]
        by_cases h2 : (entryAt cache mid).v < v
        · simp only [h2, if_true]
          refine ih (mid + 1) hi (by omega) hhi (by omega) ?_ hB
          intro j hj
          rcases Nat.lt_or_ge j mid with hl | hg
          · exact lt_trans (cacheSorted_entryAt hs hl (by omega)) h2
          · have hjm : j = mid := by omega
            rw [hjm]
            exact h2
        · have heq : (entryAt cache mid).v = v := by omega
          simp only [h2, if_false]
          refine ⟨by omega, ?_, Or.inr (le_of_eq heq.symm)⟩
          intro j hj
          have := cacheSorted_entryAt hs hj (show mid < cache.length
            by omega)
          omega
    · simp only [hlt, if_false]
      have hleq : lo = hi := by omega
      subst hleq
      exact ⟨hhi, by intro j hj; exact hA j (by omega), hB⟩

/-- The cache search finds the index of an entry holding exactly the
requested value whenever one exists. -/
theorem cacheSearch_finds (cache : List CACHE_ENTRY) (v : Int)
    (hs : cacheSorted cache) (k : Nat) (hk : k < cache.length)
    (hkv : (entryAt cache k).v = v) :
    cacheSearch cache v = (k : Int) := by
  have hlen : ¬ (cache.length = 0) := by omega
  obtain ⟨hr1, hr2, hr3⟩ := cacheFindLoop_spec cache v hs
    cache.length 0 (cache.length - 1) (by omega) (by omega) (by omega)
    (by intro j hj; omega) (Or.inl rfl)
  set r := cacheFindLoop cache v cache.length 0 (cache.length - 1)
    with hr
  have hrk : r = k := by
    rcases Nat.lt_trichotomy r k with h | h | h
    · exfalso
      have hlt := cacheSorted_entryAt hs h hk
      rcases hr3 with h3 | h3
      · omega
      · omega
    · exact h
    · exfalso
      have := hr2 k h
      omega
  unfold cacheSearch
  rw [if_neg hlen, ← hr, hrk]
  rw [if_pos (le_of_eq hkv.symm)]

/-- On a sorted cache, `cache_get` on a value already held by an entry
returns that entry's graph without touching the state. -/
theorem cache_get_found (ctx : GraphCtx) (v : Int) (g : Nat)
    (hs : cacheSorted ctx.cache)
    (hmem : (⟨v, g⟩ : CACHE_ENTRY) ∈ ctx.cache) :
    cache_get ctx v = (ctx, g) := by
  obtain ⟨k, hk, hkv⟩ := List.mem_iff_getElem.mp hmem
  have hek : entryAt ctx.cache k = ⟨v, g⟩ := by
    rw [entryAt, List.getD_eq_getElem _ _ hk, hkv]
  have hsearch := cacheSearch_finds ctx.cache v hs k hk
    (by rw [hek])
  unfold cache_get
  rw [hsearch]
  have hcond : ¬ (((k : Int) < 0) ∨
      (entryAt ctx.cache (k : Int).toNat).v ≠ v) := by
    simp only [Int.toNat_natCast]
    push_neg
    exact ⟨by omega, by rw [hek]⟩
  rw [if_neg hcond]
  simp only [Int.toNat_natCast, hek]

/-- Index-wise description of `List.insertIdx` on the cache. -/
theorem entryAt_insertIdx (l : List CACHE_ENTRY) (e : CACHE_ENTRY)
    (idx : Nat) (hidx : idx ≤ l.length) (i : Nat)
    (hi : i < l.length + 1) :
    entryAt (l.insertIdx idx e) i =
      if i < idx then entryAt l i
      else if i = idx then e
      else entryAt l (i - 1) := by
  have hlen : (l.insertIdx idx e).length = l.length + 1 :=
    List.length_insertIdx idx l hidx
  have hi' : i < (l.insertIdx idx e).length := by omega
  rw [entryAt, List.getD_eq_getElem _ _ hi']
  by_cases h1 : i < idx
  · rw [if_pos h1]
    have hil : i < l.length := by omega
    rw [List.getElem_insertIdx_of_lt l e idx i h1 hil]
    rw [entryAt, List.getD_eq_getElem _ _ hil]
  · rw [if_neg h1]
    by_cases h2 : i = idx
    · rw [if_pos h2]
      subst h2
      exact List.getElem_insertIdx_self l e i hidx
    · rw [if_neg h2]
      obtain ⟨k, hki⟩ : ∃ k, i = idx + k + 1 := ⟨i - idx - 1, by omega⟩
      subst hki
      have hkl : idx + k < l.length := by omega
      have := List.getElem_insertIdx_add_succ l e idx k hkl
      rw [this]
      have hred : idx + k + 1 - 1 = idx + k := by omega
      rw [hred, entryAt, List.getD_eq_getElem _ _ hkl]

/-- Inserting an entry at a position that respects the ordering keeps
the cache sorted. -/
theorem cacheSorted_insertIdx (l : List CACHE_ENTRY) (e : CACHE_ENTRY)
    (idx : Nat) (hidx : idx ≤ l.length)
    (hbef : ∀ j, j < idx → (entryAt l j).v < e.v)
    (haft : ∀ j, idx ≤ j → j < l.length → e.v < (entryAt l j).v)
    (hs : cacheSorted l) :
    cacheSorted (l.insertIdx idx e) := by
  have hlen : (l.insertIdx idx e).length = l.length + 1 :=
    List.length_insertIdx idx l hidx
  rw [cacheSorted, List.pairwise_iff_getElem]
  intro i j hi hj hij
  have hgi : (l.insertIdx idx e)[i] = entryAt (l.insertIdx idx e) i :=
    (List.getD_eq_getElem _ _ hi).symm
  have hgj : (l.insertIdx idx e)[j] = entryAt (l.insertIdx idx e) j :=
    (List.getD_eq_getElem _ _ hj).symm
  rw [hgi, hgj, entryAt_insertIdx l e idx hidx i (by omega),
    entryAt_insertIdx l e idx hidx j (by omega)]
  split_ifs with ha hb hc hd he hf hg
  · exact cacheSorted_entryAt hs hij (by omega)
  · exact hbef i ha
  · exact cacheSorted_entryAt hs (by omega) (by omega)
  · omega
  · omega
  · exact haft (j - 1) (by omega) (by omega)
  · omega
  · omega
  · exact cacheSorted_entryAt hs (by omega) (by omega)

/-- The first `cache_get` call leaves a sorted cache holding an entry
that binds the requested value to the returned graph. -/
theorem cache_get_spec (ctx : GraphCtx) (v : Int)
    (hs : cacheSorted ctx.cache) :
    cacheSorted (cache_get ctx v).1.cache ∧
    (⟨v, (cache_get ctx v).2⟩ : CACHE_ENTRY) ∈
      (cache_get ctx v).1.cache := by
  by_cases hlen : ctx.cache.length = 0
  · have hnil : ctx.cache = [] := List.length_eq_zero.mp hlen
    unfold cache_get cacheSearch
    rw [hnil]
    norm_num
    constructor
    · simp
    · simp
  · obtain ⟨hr1, hr2, hr3⟩ := cacheFindLoop_spec ctx.cache v hs
      ctx.cache.length 0 (ctx.cache.length - 1) (by omega) (by omega)
      (by omega) (by intro j hj; omega) (Or.inl rfl)
    set r := cacheFindLoop ctx.cache v ctx.cache.length 0
      (ctx.cache.length - 1) with hr
    have hsearch : cacheSearch ctx.cache v =
        if v ≤ (entryAt ctx.cache r).v then (r : Int) else -1 := by
      unfold cacheSearch
      rw [if_neg hlen, ← hr]
    by_cases hfound : v ≤ (entryAt ctx.cache r).v
    · by_cases heq : (entryAt ctx.cache r).v = v
      · have hget : cache_get ctx v =
            (ctx, (entryAt ctx.cache r).pg) := by
          unfold cache_get
          rw [hsearch, if_pos hfound]
          have hcond : ¬ (((r : Int) < 0) ∨
              (entryAt ctx.cache (r : Int).toNat).v ≠ v) := by
            simp only [Int.toNat_natCast]
            push_neg
            exact ⟨by omega, heq⟩
          rw [if_neg hcond]
          simp only [Int.toNat_natCast]
        rw [hget]
        refine ⟨hs, ?_⟩
        have hentry : (⟨v, (entryAt ctx.cache r).pg⟩ : CACHE_ENTRY) =
            entryAt ctx.cache r := by
          cases hE : entryAt ctx.cache r
          simp only [hE] at heq ⊢
          rw [heq]
        rw [hentry, entryAt, List.getD_eq_getElem _ _ hr1]
        exact List.getElem_mem hr1
      · have hvlt : v < (entryAt ctx.cache r).v := by omega
        have hget : cache_get ctx v =
            (⟨ctx.cache.insertIdx r ⟨v, ctx.nextId⟩, ctx.nextId + 1⟩,
              ctx.nextId) := by
          unfold cache_get
          rw [hsearch, if_pos hfound]
          have hcond : ((r : Int) < 0) ∨
              (entryAt ctx.cache (r : Int).toNat).v ≠ v := by
            simp only [Int.toNat_natCast]
            exact Or.inr heq
          rw [if_pos hcond]
          have hneg : ¬ ((r : Int) < 0) := by omega
          simp only [hneg, if_false, Int.toNat_natCast]
        rw [hget]
        constructor
        · refine cacheSorted_insertIdx ctx.cache ⟨v, ctx.nextId⟩ r
            (by omega) (by intro j hj; exact hr2 j hj) ?_ hs
          intro j hjr hjl
          rcases Nat.eq_or_lt_of_le hjr with hje | hjl2
          · rw [← hje]
            exact hvlt
          · exact lt_trans hvlt (cacheSorted_entryAt hs hjl2 hjl)
        · exact (List.mem_insertIdx (by omega)).mpr (Or.inl rfl)
    · have hall : ∀ j, j < ctx.cache.length →
          (entryAt ctx.cache j).v < v := by
        intro j hj
        have hrlast : r = ctx.cache.length - 1 := by
          rcases hr3 with h3 | h3
          · exact h3
          · omega
        rcases Nat.lt_or_ge j r with hl | hg
        · exact hr2 j hl
        · have hjr : j = r := by omega
          rw [hjr]
          omega
      have hget : cache_get ctx v =
          (⟨ctx.cache.insertIdx ctx.cache.length ⟨v, ctx.nextId⟩,
            ctx.nextId + 1⟩, ctx.nextId) := by
        unfold cache_get
        rw [hsearch, if_neg hfound]
        have hcond : ((-1 : Int) < 0) ∨
            (entryAt ctx.cache (-1 : Int).toNat).v ≠ v := Or.inl
          (by norm_num)
        rw [if_pos hcond]
        norm_num
      rw [hget]
      constructor
      · exact cacheSorted_insertIdx ctx.cache ⟨v, ctx.nextId⟩
          ctx.cache.length (le_refl _)
          (by intro j hj; exact hall j hj)
          (by intro j hj1 hj2; omega) hs
      · exact (List.mem_insertIdx (le_refl _)).mpr (Or.inl rfl)

/-- C9: on any well-formed interning state, `graph_constant v` (for
`v ≥ 0`) yields a graph object such that a second `graph_constant v`
call returns the very same object identity with the state unchanged —
not merely a structurally equal graph — and likewise any one-node
graph produced through begin/add/end (whose `accTake` goes through the
same value-to-graph cache) yields that same object. -/
theorem C9_constant_graph_interning (ctx : GraphCtx) (v t : Int)
    (hs : cacheSorted ctx.cache) (hv : 0 ≤ v) :
    ∃ ctx1 g1,
      graph_constant ctx v = .ok (ctx1, g1) ∧
      graph_constant ctx1 v = .ok (ctx1, g1) ∧
      accTake ctx1 [⟨t, v⟩] = .ok (ctx1, g1) := by
  obtain ⟨hs1, hmem⟩ := cache_get_spec ctx v hs
  refine ⟨(cache_get ctx v).1, (cache_get ctx v).2, ?_, ?_, ?_⟩
  · unfold graph_constant
    rw [if_neg (by omega)]
  · unfold graph_constant
    rw [if_neg (by omega),
      cache_get_found (cache_get ctx v).1 v (cache_get ctx v).2
        hs1 hmem]
  · unfold accTake
    norm_num
    rw [show (nodeAt [⟨t, v⟩] 0).v = v from rfl,
      cache_get_found (cache_get ctx v).1 v (cache_get ctx v).2
        hs1 hmem]

/-- Witness for C9 starting from the empty cache with `v = 64`:
both repeated `graph_constant` calls and the one-node `accTake` return
the same identity. -/
theorem C9_constant_graph_interning_witness :
    ∃ ctx1 g1,
      graph_constant ⟨[], 0⟩ 64 = .ok (ctx1, g1) ∧
      graph_constant ctx1 64 = .ok (ctx1, g1) ∧
      accTake ctx1 [⟨0, 64⟩] = .ok (ctx1, g1) :=
  C9_constant_graph_interning ⟨[], 0⟩ 64 0 (by decide) (by decide)

/-! ## Region resolver, ramp case (`src/graph.c` `resolve`)

`resolve` flushes the buffered region into the accumulator.  For a
ramp region it emits the start node, rounds the starting subquantum
down to a step boundary — choosing the rounding branch by testing the
sampling variable `t` (a local initialised to zero and not yet
assigned at that point) instead of the anchor — and then samples every
step-multiple strictly before the successor region's subquantum.  The
interpolated values are computed with C doubles (`exp`/`log`/`floor`);
they are abstracted here as an uninterpreted sampling function
`interp`, which the claim (about the fatal-diagnostic path taken
before any sampling) never depends on. -/

/-- Errors raised by `resolve` on a ramp region, one per diagnostic
site: the chronology check, the "Ramp may not be last region"
diagnostic, a moment-packing overflow inside the sampling loop, and
the `raiseErr(__LINE__, NULL)` fall-through of the rounding branches
(src/graph.c line 932). -/
inductive ResolveErr where
  | nonChronological
  | rampAtEnd
  | packOverflow
  | roundingFallThrough
deriving DecidableEq, Repr

/-- The sampling loop `for(t += c; t < te; t += c)` of the ramp case
of `resolve` (src/graph.c lines 941-988): emit a node at every step
multiple strictly before `te`, packing the subquantum with the moment
part `mp` of the region start and taking the interpolated value from
`interp`.  The step `c` is validated ≥ 1 by `graph_add_ramp`, so the
fuel `(te - start).toNat + 1` dominates the iteration count. -/
def rampSamples (interp : Int → Int) (mp c te : Int) :
    Nat → Int → Except PackErr (List NODE)
  | 0, _ => .ok []
  | fuel + 1, t =>
    if t < te then
      match pointer_pack t mp with
      | .error e => .error e
      | .ok tm =>
        match rampSamples interp mp c te fuel (t + c) with
        | .error e => .error e
        | .ok rest => .ok (⟨tm, interp t⟩ :: rest)
    else .ok []

/-- The ramp path of `resolve` (src/graph.c lines 847-999, STATE_RAMP
with anchor `tb`, values `a → b`, step `c`): the chronology check
against the successor at `t_next`, the `a = b` degeneration to a
constant region, the *RampAtEnd* check, the start-node emission, the
rounding of the start subquantum to a step boundary — with the source's
`if (t < 0)` test of the zero-initialised sampling variable modelled
verbatim as `tvar < 0` — and the sampling loop. -/
def resolveRamp (interp : Int → Int) (tb a b c t_next : Int)
    (has_next : Bool) : Except ResolveErr (List NODE) :=
  if has_next ∧ t_next ≤ tb then .error .nonChronological
  else if a = b then .ok [⟨tb, a⟩]
  else if ¬ has_next then .error .rampAtEnd
  else
    let ts := (pointer_unpack tb).1
    let mp := (pointer_unpack tb).2
    let tvar : Int := 0
    if tvar < 0 then
      let t0 := ((0 - ts) / c) * (0 - c)
      let t1 := if ts < t0 then t0 - c else t0
      let te := (pointer_unpack t_next).1
      match rampSamples interp mp c te (te - (t1 + c)).toNat.succ
          (t1 + c) with
      | .error _ => .error .packOverflow
      | .ok ns => .ok (⟨tb, a⟩ :: ns)
    else if 0 ≤ tb then
      let t0 := (ts / c) * c
      let te := (pointer_unpack t_next).1
      match rampSamples interp mp c te (te - (t0 + c)).toNat.succ
          (t0 + c) with
      | .error _ => .error .packOverflow
      | .ok ns => .ok (⟨tb, a⟩ :: ns)
    else .error .roundingFallThrough

/-- C10: for every buffered ramp region with distinct start and target
values (`a ≠ b`) and a following region (chronologically after the
anchor), if the anchor moment offset is negative then resolving always
aborts with the fatal fall-through diagnostic — the negative-rounding
branch tests the sampling variable (zero at that point), so neither
rounding branch applies — and no interpolated node is emitted; with a
non-negative anchor that diagnostic is never reached, so ramp regions
are only resolvable when anchored at non-negative moment offsets. -/
theorem C10_ramp_negative_anchor (interp : Int → Int)
    (tb a b c t_next : Int) (hab : a ≠ b) (hchron : tb < t_next) :
    (tb < 0 →
      resolveRamp interp tb a b c t_next true =
        .error .roundingFallThrough) ∧
    (0 ≤ tb →
      resolveRamp interp tb a b c t_next true ≠
        .error .roundingFallThrough) := by
  have h1 : ¬ ((true : Bool) ∧ t_next ≤ tb) := by
    simp only [true_and]
    omega
  have h3 : ¬ (¬ (true : Bool)) := by simp
  have h4 : ¬ ((0 : Int) < 0) := by omega
  constructor
  · intro hneg
    unfold resolveRamp
    rw [if_neg h1, if_neg hab, if_neg h3, if_neg h4,
      if_neg (show ¬ (0 ≤ tb) by omega)]
  · intro hpos
    unfold resolveRamp
    rw [if_neg h1, if_neg hab, if_neg h3, if_neg h4, if_pos hpos]
    rcases hres : rampSamples interp (pointer_unpack tb).2 c
        (pointer_unpack t_next).1
        ((pointer_unpack t_next).1 -
          ((pointer_unpack tb).1 / c * c + c)).toNat.succ
        ((pointer_unpack tb).1 / c * c + c) with e | ns
    · simp only [hres]
      intro hcontra
      cases hcontra
    · simp only [hres]
      intro hcontra
      cases hcontra

/-- Witness for C10 at the concrete ramp `0 → 1`, step 8, anchored at
moment -3 with successor at moment 5: the resolver aborts with the
fall-through diagnostic; anchored at moment 0 instead, it does not. -/
theorem C10_ramp_negative_anchor_witness :
    resolveRamp (fun _ => 0) (-3) 0 1 8 5 true =
      .error .roundingFallThrough ∧
    resolveRamp (fun _ => 0) 0 0 1 8 5 true ≠
      .error .roundingFallThrough := by
  constructor
  · exact (C10_ramp_negative_anchor (fun _ => 0) (-3) 0 1 8 5
      (by norm_num) (by norm_num)).1 (by norm_num)
  · exact (C10_ramp_negative_anchor (fun _ => 0) 0 0 1 8 5
      (by norm_num) (by norm_num)).2 (by norm_num)

/-! ## Renderer note emission (`src/render.c`)

`render_nmf` imports the NMF notes into the event buffer and then
walks the buffer emitting a note-on and a note-off per surviving
event.  The `keyboard()` post-process (src/render.c lines 847-908),
which would delete same-onset duplicates and truncate overlapping
durations per (channel, key), is present in the source but its
invocation is commented out (`/* keyboard(); */`, src/render.c line
1175), so the buffer is emitted exactly as imported.  The model below
covers the note-on/note-off emission the claim quantifies over; the
optional poly-aftertouch stream of `after`-flagged events (disabled in
the inputs considered) emits no note events. -/

/-- Infrared event (src/render.c IR_EVENT): event id (negative =
deleted), performance subquantum offset and duration, MIDI key and
channel, release velocity (-1 = use note-on with velocity 0),
aftertouch flag and velocity graph. -/
structure IR_EVENT where
  eid : Int
  t : Int
  dur : Int
  key : Nat
  ch : Nat
  release : Int
  after : Bool
  pg : GRAPH
deriving DecidableEq, Repr

/-- A channel-voice message recorded through `midi_message`
(src/midi.c): moment offset, channel, message nibble (0x8 note-off,
0x9 note-on), key and data value. -/
structure NoteMsg where
  t : Int
  ch : Nat
  msg : Nat
  idx : Nat
  val : Int
deriving DecidableEq, Repr

/-- Errors raised while rendering one event, one per diagnostic
site. -/
inductive RenderErr where
  | packOverflow
  | velocityRange
  | momentOverflow
  | badNoteEnd
deriving DecidableEq, Repr

/-- The per-event body of the render loop (src/render.c lines
1178-1258): skip deleted events; note-on at `pack(t, middle)` with the
velocity queried from the event's graph (fatal unless 1..127);
note-off at `pack(t + dur, start)` — a note-on with velocity 0 when
the release velocity is negative, a note-off otherwise. -/
def renderEvent (e : IR_EVENT) : Except RenderErr (List NoteMsg) :=
  if e.eid < 0 then .ok []
  else
    match pointer_pack e.t 1 with
    | .error _ => .error .packOverflow
    | .ok t =>
      let v := graph_query e.pg t
      if v < 1 ∨ 127 < v then .error .velocityRange
      else
        if e.t ≤ 2147483647 - e.dur then
          match pointer_pack (e.t + e.dur) 0 with
          | .error _ => .error .packOverflow
          | .ok t_end =>
            if t_end ≤ t then .error .badNoteEnd
            else
              let offMsg : NoteMsg :=
                if e.release < 0 then ⟨t_end, e.ch, 0x9, e.key, 0⟩
                else ⟨t_end, e.ch, 0x8, e.key, e.release⟩
              .ok [⟨t, e.ch, 0x9, e.key, v⟩, offMsg]
        else .error .momentOverflow

/-- The render loop of `render_nmf` (src/render.c lines 1178-1259)
over the imported event buffer.  No keyboard pass runs before it: the
`keyboard()` call at src/render.c line 1175 is commented out. -/
def render_nmf_notes : List IR_EVENT → Except RenderErr (List NoteMsg)
  | [] => .ok []
  | e :: rest =>
    match renderEvent e with
    | .error er => .error er
    | .ok ms =>
      match render_nmf_notes rest with
      | .error er => .error er
      | .ok rest2 => .ok (ms ++ rest2)

/-- C6 failing input: two imported events on the same channel 1 and
key 60, the first at subquanta [0, 16), the second at subquanta
[8, 24) — overlapping.  Because the `keyboard()` invocation is
commented out, `render_nmf` emits both pairs untruncated: the second
note-on (moment 25) falls strictly between the first note-on (moment
1) and the first note-off (moment 48) on the same (channel, key), so
the emitted note-on/note-off pairs are not pairwise non-overlapping,
contrary to the claim. -/
theorem C6_keyboard_overlap_failing :
    render_nmf_notes
      [⟨1, 0, 16, 60, 1, -1, false, ⟨[⟨0, 64⟩]⟩⟩,
       ⟨2, 8, 16, 60, 1, -1, false, ⟨[⟨0, 64⟩]⟩⟩] =
      .ok [⟨1, 1, 0x9, 60, 64⟩, ⟨48, 1, 0x9, 60, 0⟩,
        ⟨25, 1, 0x9, 60, 64⟩, ⟨72, 1, 0x9, 60, 0⟩] ∧
    (1 : Int) < 25 ∧ (25 : Int) < 48 := by
  exact ⟨by decide, by decide, by decide⟩

/-! ## Set algebra (`src/set.c`)

A set definition accumulates sorted, pairwise-disjoint,
non-adjacent inclusive ranges together with a polarity: a positive
accumulator lists the members, a negative one the non-members.
`set_end` encodes the result as a span table (one integer per span:
non-negative = closed span, `-v-1` = open span starting at `v`) and
`set_has` queries it by binary search.  The C loops over the range
array (with their `i--`/`i++` index adjustments after
`accInsert`/`accReplace`/`accDelete`) are transcribed as structural
recursions over the range list; the `raiseErr(__LINE__, NULL)`
assertion branches, unreachable on well-formed accumulators, are noted
where they occur.  Capacity limits are not modelled. -/

/-- RANGE structure (src/set.c): inclusive boundaries. -/
structure RANGE where
  lo : Int
  hi : Int
deriving DecidableEq, Repr

/-- The set-definition state: polarity (`1` positive, `-1` negative)
and the accumulator ranges. -/
structure SetSt where
  state : Int
  acc : List RANGE
deriving DecidableEq, Repr

/-- The exclusion loop of `set_rclose` (src/set.c lines 757-835): each
range is left alone, trimmed on one side, split in two, or deleted,
depending on how it meets the excluded zone `[lo, hi]`; ranges beyond
the zone stop the scan.  (The final `raiseErr(NULL)` branch of the
source is unreachable: the four guards are exhaustive.) -/
def exclLoop (lo hi : Int) : List RANGE → List RANGE
  | [] => []
  | r :: rest =>
    if hi < r.lo then r :: rest
    else if r.hi < lo then r :: exclLoop lo hi rest
    else if r.lo < lo ∧ hi < r.hi then
      ⟨r.lo, lo - 1⟩ :: ⟨hi + 1, r.hi⟩ :: exclLoop lo hi rest
    else if lo ≤ r.lo ∧ hi < r.hi then
      ⟨hi + 1, r.hi⟩ :: exclLoop lo hi rest
    else if r.lo < lo ∧ r.hi ≤ hi then
      ⟨r.lo, lo - 1⟩ :: exclLoop lo hi rest
    else exclLoop lo hi rest

/-- The inclusion loop of `set_rclose` (src/set.c lines 839-885):
ranges touching the new zone are merged into it (expanding its
boundaries) and deleted; the grown zone is inserted before the first
range lying entirely above it, or appended. -/
def inclLoop (lo hi : Int) : List RANGE → List RANGE
  | [] => [⟨lo, hi⟩]
  | r :: rest =>
    if hi ≤ r.lo - 2 then ⟨lo, hi⟩ :: r :: rest
    else if r.hi ≤ lo - 2 then r :: inclLoop lo hi rest
    else inclLoop (if r.lo < lo then r.lo else lo)
      (if hi < r.hi then r.hi else hi) rest

/-- `set_rclose` (src/set.c lines 719-886): in a negative set the
exclusion flag is inverted, then the accumulator goes through the
exclusion or inclusion loop. -/
def set_rclose (s : SetSt) (lo hi : Int) (exc : Bool) : SetSt :=
  let exc2 := if s.state < 0 then !exc else exc
  if exc2 then ⟨s.state, exclLoop lo hi s.acc⟩
  else ⟨s.state, inclLoop lo hi s.acc⟩

/-- Phase 1 of the polarity-inverting branch of `set_ropen`
(src/set.c lines 928-934): every range whose upper bound reaches past
`lo - 2` has its `lo` taken over as the new open-range start — an
unconditional overwrite, not a minimum — and is deleted. -/
def ropenGather (lo : Int) : List RANGE → Int × List RANGE
  | [] => (lo, [])
  | r :: rest =>
    if lo - 2 < r.hi then ropenGather r.lo rest
    else
      let g := ropenGather lo rest
      (g.1, r :: g.2)

/-- Phase 2 of the polarity-inverting branch of `set_ropen`
(src/set.c lines 938-978): replace each remaining range by the medial
gap before it, carrying the position just after the previous range. -/
def ropenInvert (pos : Int) : List RANGE → Int × List RANGE
  | [] => (pos, [])
  | r :: rest =>
    if pos < 0 ∧ 0 < r.lo then
      let p := ropenInvert (r.hi + 1) rest
      (p.1, ⟨0, r.lo - 1⟩ :: p.2)
    else if pos < 0 ∧ r.lo < 1 then
      ropenInvert (r.hi + 1) rest
    else
      let p := ropenInvert (r.hi + 1) rest
      (p.1, ⟨pos, r.lo - 1⟩ :: p.2)

/-- The keep-polarity branch of `set_ropen` (src/set.c lines
1013-1027): drop ranges inside the open zone and trim ranges
straddling its start. -/
def ropenKeep (lo : Int) : List RANGE → List RANGE
  | [] => []
  | r :: rest =>
    if lo ≤ r.lo then ropenKeep lo rest
    else if lo ≤ r.hi then ⟨r.lo, lo - 1⟩ :: ropenKeep lo rest
    else r :: ropenKeep lo rest

/-- `set_ropen` (src/set.c lines 891-1029): including an open range in
a positive set (or excluding one from a negative set) inverts the
polarity via the gather/invert phases and the final medial-zone
append; otherwise the polarity is kept and ranges in the zone are
dropped or trimmed. -/
def set_ropen (s : SetSt) (lo : Int) (exc : Bool) : SetSt :=
  let inv := ((!exc) && decide (0 < s.state)) ||
    (exc && decide (s.state < 0))
  if inv then
    let g := ropenGather lo s.acc
    let p := ropenInvert (-1) g.2
    let acc3 :=
      if p.1 < 0 ∧ 0 < g.1 then p.2 ++ [⟨0, g.1 - 1⟩]
      else if 0 ≤ p.1 then p.2 ++ [⟨p.1, g.1 - 1⟩]
      else p.2
    ⟨0 - s.state, acc3⟩
  else
    ⟨s.state, ropenKeep lo s.acc⟩

/-- `encodeEntry` (src/set.c lines 487-498): closed spans as-is, open
spans as `-v-1`. -/
def encodeEntry (v : Int) (o : Bool) : Int :=
  if o then (0 - v) - 1 else v

/-- `decodeEntry` (src/set.c lines 520-535): span value and openness
flag. -/
def decodeEntry (e : Int) : Int × Bool :=
  if e < 0 then (0 - (e + 1), true) else (e, false)

/-- The positive-polarity encoding loop of `set_end` (src/set.c lines
1210-1233): one closed span for a singleton, two closed spans for a
two-element range, open-plus-closed for longer ranges. -/
def spansPos : List RANGE → List Int
  | [] => []
  | r :: rest =>
    (if r.lo = r.hi then [encodeEntry r.lo false]
     else if r.lo = r.hi - 1 then
       [encodeEntry r.lo false, encodeEntry r.hi false]
     else [encodeEntry r.lo true, encodeEntry r.hi false]) ++
    spansPos rest

/-- The negative-polarity encoding loop of `set_end` (src/set.c lines
1291-1332): encode the gap before each excluded range, then an open
span for everything above the last one (unless it reached
`INT32_MAX`).  (The `pos < 0` assertion of the source cannot fire on
well-formed accumulators.) -/
def spansNegLoop (pos : Int) : List RANGE → List Int
  | [] => if 0 ≤ pos then [encodeEntry pos true] else []
  | r :: rest =>
    (if r.lo - 1 = pos then [encodeEntry pos false]
     else if r.lo - 2 = pos then
       [encodeEntry pos false, encodeEntry (pos + 1) false]
     else if pos ≤ r.lo - 3 then
       [encodeEntry pos true, encodeEntry (r.lo - 1) false]
     else []) ++
    spansNegLoop (if r.hi < 2147483647 then r.hi + 1 else -1) rest

/-- `set_end` (src/set.c lines 1156-1355): encode the accumulator into
the span table according to the polarity. -/
def set_end (s : SetSt) : List Int :=
  if 0 < s.state then spansPos s.acc
  else spansNegLoop 0 s.acc

/-- The `while (lo < hi)` search loop of `set_has` (src/set.c lines
1410-1439), comparing decoded span values, midpoint biased above the
lower boundary; fuel `table.length` dominates the iteration count. -/
def setHasLoop (table : List Int) (val : Int) : Nat → Nat → Nat → Nat
  | 0, lo, _ => lo
  | fuel + 1, lo, hi =>
    if lo < hi then
      let mid0 := lo + (hi - lo) / 2
      let mid := if mid0 ≤ lo then lo + 1 else mid0
      if (decodeEntry (table.getD mid 0)).1 < val then
        setHasLoop table val fuel mid hi
      else if val < (decodeEntry (table.getD mid 0)).1 then
        setHasLoop table val fuel lo (mid - 1)
      else mid
    else lo

/-- `set_has` (src/set.c lines 1383-1459): find the span covering the
value; an open span contains everything from its value up, a closed
span only its value. -/
def set_has (table : List Int) (val : Int) : Bool :=
  if table.length = 0 then false
  else
    let lo := setHasLoop table val table.length 0 (table.length - 1)
    let d := decodeEntry (table.getD lo 0)
    if d.2 then decide (d.1 ≤ val) else decide (val = d.1)

/-- One set-definition operation of the claim's sequence. -/
inductive SetOp where
  | opAll
  | opNone
  | opInvert
  | opRClose (lo hi : Int) (exc : Bool)
  | opROpen (lo : Int) (exc : Bool)
deriving DecidableEq, Repr

/-- Dispatch of one operation on the accumulator state (`set_all`,
`set_none`, `set_invert`, `set_rclose`, `set_ropen`). -/
def runOp (s : SetSt) : SetOp → SetSt
  | .opAll => ⟨-1, []⟩
  | .opNone => ⟨1, []⟩
  | .opInvert => ⟨0 - s.state, s.acc⟩
  | .opRClose lo hi exc => set_rclose s lo hi exc
  | .opROpen lo exc => set_ropen s lo exc

/-- A whole definition sequence starting from `set_begin` (positive
empty set). -/
def runOps (ops : List SetOp) : SetSt := ops.foldl runOp ⟨1, []⟩

/-- The naive evaluation of the same operation sequence directly as a
membership predicate over the non-negative integers (the semantics
stated by src/set.h: inclusion is union, exclusion is difference). -/
def naiveOp (mem : Int → Bool) : SetOp → Int → Bool
  | .opAll => fun _ => true
  | .opNone => fun _ => false
  | .opInvert => fun x => !(mem x)
  | .opRClose lo hi exc => fun x =>
    if exc then mem x && !(decide (lo ≤ x) && decide (x ≤ hi))
    else mem x || (decide (lo ≤ x) && decide (x ≤ hi))
  | .opROpen lo exc => fun x =>
    if exc then mem x && !(decide (lo ≤ x))
    else mem x || decide (lo ≤ x)

/-- Naive evaluation of a sequence from the empty set. -/
def naiveRun (ops : List SetOp) : Int → Bool :=
  ops.foldl naiveOp (fun _ => false)

/-- C8 failing input: include the closed range [5,6], then include the
open range [1,∞).  Phase 1 of `set_ropen` overwrites the open range's
start with the touched range's `lo` (5) instead of keeping the
minimum (1), so the built set is `{5,6,...}` instead of `{1,2,...}`:
`set_has` answers `false` at 1 where the naive evaluation of the same
sequence answers `true` (the two agree at 0 and 5). -/
theorem C8_set_ropen_failing :
    runOps [.opRClose 5 6 false, .opROpen 1 false] = ⟨-1, [⟨0, 4⟩]⟩ ∧
    set_end (runOps [.opRClose 5 6 false, .opROpen 1 false]) = [-6] ∧
    set_has (set_end (runOps [.opRClose 5 6 false, .opROpen 1 false]))
      1 = false ∧
    naiveRun [.opRClose 5 6 false, .opROpen 1 false] 1 = true ∧
    set_has (set_end (runOps [.opRClose 5 6 false, .opROpen 1 false]))
      5 = true ∧
    naiveRun [.opRClose 5 6 false, .opROpen 1 false] 5 = true ∧
    set_has (set_end (runOps [.opRClose 5 6 false, .opROpen 1 false]))
      0 = false ∧
    naiveRun [.opRClose 5 6 false, .opROpen 1 false] 0 = false := by
  refine ⟨by decide, by decide, by decide, by decide, by decide,
    by decide, by decide, by decide⟩

end Infrared
